import Mathlib

/-!
Verification development for the runtime host driver
(`src/lib/src/executor/runtime_host.rs`): the stateful coordinator that
drives a Wasm runtime to completion by resolving host-side externalities.

The embedding models:
  * byte strings as `List Nat` (each entry intended `< 256`);
  * the storage overlay (`storage_diff::TrieDiff`, an external collaborator,
    modelled from the spec) as a sorted association list;
  * SCALE compact integers (`util::encode_scale_compact_usize` /
    `util::nom_scale_compact_usize`, external, modelled from the spec);
  * the log writer `WriterWithMax` byte-exactly;
  * the virtual machine (`host::HostVm`, an opaque collaborator) as an
    inductive tree of externality requests carrying resumption continuations;
  * the driver loop `Inner::run` as a fuel-indexed interpreter over a
    one-iteration step function.
-/

set_option maxHeartbeats 1000000

namespace RuntimeHost

/-- Byte strings (`&[u8]` / `Vec<u8>`); each element is intended to be `< 256`. -/
abbrev Bytes := List Nat

/-- The proposition that a `Bytes` value really consists of bytes. -/
def IsBytes (l : Bytes) : Prop := ∀ b ∈ l, b < 256

/-- Lexicographic strict order on byte strings, as `Ord` on Rust `&[u8]`. -/
def keyLt : Bytes → Bytes → Bool
  | [], [] => false
  | [], _ :: _ => true
  | _ :: _, [] => false
  | x :: xs, y :: ys => if x < y then true else if y < x then false else keyLt xs ys

/-- Modelled from the spec: `trie::bytes_to_nibbles` (glossary: a nibble is a
4-bit symbol, two per byte, high nibble first). -/
def bytes_to_nibbles : Bytes → List Nat
  | [] => []
  | b :: rest => b / 16 :: b % 16 :: bytes_to_nibbles rest

/-- Modelled from the spec: `trie::nibbles_to_bytes_suffix_extend` (pairs of
nibbles are packed into bytes; a trailing lone nibble is suffix-extended
with a zero nibble). -/
def nibbles_to_bytes_suffix_extend : List Nat → Bytes
  | a :: b :: rest => (a * 16 + b) :: nibbles_to_bytes_suffix_extend rest
  | [a] => [a * 16]
  | [] => []

/-! ## The storage overlay

Modelled from the spec (§3, §4.C): the `Diff` library (`storage_diff::TrieDiff`)
is an external collaborator, "a mapping from byte-key to optional bytes value;
absent key ≡ see backing store; present key with `Some` ≡ overlay write;
present key with `None` ≡ overlay deletion", supporting get, insert, erase
and the ordered `storage_next_key` query.  The mapping is represented as an
association list kept sorted by `keyLt`. -/
abbrev TrieDiff := List (Bytes × Option Bytes)

/-- Overlay lookup (`TrieDiff::diff_get`), without the unit user data. -/
def diff_get : TrieDiff → Bytes → Option (Option Bytes)
  | [], _ => none
  | (k, v) :: rest, key => if k = key then some v else diff_get rest key

/-- Sorted insert-or-replace, shared by `diff_insert` and `diff_insert_erase`. -/
def diff_insert_entry : TrieDiff → Bytes → Option Bytes → TrieDiff
  | [], k, v => [(k, v)]
  | (k', v') :: rest, k, v =>
    if keyLt k k' then (k, v) :: (k', v') :: rest
    else if k = k' then (k, v) :: rest
    else (k', v') :: diff_insert_entry rest k v

/-- Overlay write (`TrieDiff::diff_insert`), without the unit user data. -/
def diff_insert (d : TrieDiff) (k : Bytes) (v : Bytes) : TrieDiff :=
  diff_insert_entry d k (some v)

/-- Overlay deletion (`TrieDiff::diff_insert_erase`). -/
def diff_insert_erase (d : TrieDiff) (k : Bytes) : TrieDiff :=
  diff_insert_entry d k none

/-- Result of `TrieDiff::storage_next_key` (`storage_diff::StorageNextKey`). -/
inductive StorageNextKey where
  | Found (key : Option Bytes)
  | NextOf (key : Bytes)
deriving DecidableEq

/-- Walk of the in-range overlay entries (ascending) against the backing
store's candidate answer.  An overlay insertion below the candidate wins;
an overlay deletion below the candidate is skipped; an overlay deletion
equal to the candidate shadows it, forcing a re-query (`NextOf`). -/
def storage_next_key_go : List (Bytes × Option Bytes) → Option Bytes → StorageNextKey
  | [], none => .Found none
  | [], some a => .Found (some a)
  | (b, bv) :: rest, none =>
    if bv.isSome then .Found (some b) else storage_next_key_go rest none
  | (b, bv) :: rest, some a =>
    if keyLt a b then .Found (some a)
    else if keyLt b a then
      (if bv.isSome then .Found (some b) else storage_next_key_go rest (some a))
    else
      (if bv.isSome then .Found (some a) else .NextOf a)

/-- Modelled from the spec: `TrieDiff::storage_next_key(after,
candidate_from_backing_store, inclusive) → Found(key) | NextOf(key)` (§3);
`Found(k)` is the merged next key, `NextOf(k)` means the backing store's
answer was shadowed by an overlay deletion and the client must re-query
past `k` (§4.E). -/
def storage_next_key (d : TrieDiff) (key : Bytes) (inStorage : Option Bytes)
    (orEqual : Bool) : StorageNextKey :=
  storage_next_key_go
    (d.filter fun e => keyLt key e.1 || (orEqual && decide (key = e.1))) inStorage

/-! ## SCALE compact integers

Modelled from the spec (glossary): "SCALE compact — a variable-width
unsigned-integer encoding; the first byte's low two bits select a
1/2/4/big-integer mode".  `util::encode_scale_compact_usize` and
`util::nom_scale_compact_usize` live outside `src/`; the decoder is modelled
as accepting exactly the canonical (minimal) encodings that fit a 64-bit
`usize`, which is what makes the encoder/decoder a proper pair. -/

/-- Largest value of a 64-bit `usize`. -/
def usizeMax : Nat := 18446744073709551615

/-- Little-endian value of a byte string. -/
def leDecode : Bytes → Nat
  | [] => 0
  | b :: rest => b + 256 * leDecode rest

/-- Little-endian bytes (fixed width) of a value. -/
def leBytes : Nat → Nat → Bytes
  | 0, _ => []
  | m + 1, n => n % 256 :: leBytes m (n / 256)

/-- Number of bytes of the big-integer mode payload (minimal, for values
that fit a 64-bit `usize`). -/
def bytesNeeded (n : Nat) : Nat :=
  if n < 4294967296 then 4
  else if n < 1099511627776 then 5
  else if n < 281474976710656 then 6
  else if n < 72057594037927936 then 7
  else 8

/-- Modelled from the spec: `util::encode_scale_compact_usize`.  Mode is the
low two bits of the first byte: `0` one byte (`n < 2^6`), `1` two bytes
little-endian (`n < 2^14`), `2` four bytes little-endian (`n < 2^30`),
`3` big-integer (first byte `((m−4) << 2) | 3` then `m` bytes little-endian). -/
def encode_scale_compact_usize (n : Nat) : Bytes :=
  if n < 64 then [n * 4]
  else if n < 16384 then [(n * 4 + 1) % 256, (n * 4 + 1) / 256]
  else if n < 1073741824 then
    [(n * 4 + 2) % 256, (n * 4 + 2) / 256 % 256,
     (n * 4 + 2) / 65536 % 256, (n * 4 + 2) / 16777216]
  else ((bytesNeeded n - 4) * 4 + 3) :: leBytes (bytesNeeded n) n

/-- Modelled from the spec: `util::nom_scale_compact_usize`.  Returns the
decoded length and the number of bytes consumed, or `none` on a decode
failure (truncated input, non-canonical encoding, or a value that does not
fit a 64-bit `usize`). -/
def nom_scale_compact_usize (v : Bytes) : Option (Nat × Nat) :=
  match v with
  | [] => none
  | b :: rest =>
    if b % 4 = 0 then some (b / 4, 1)
    else if b % 4 = 1 then
      match rest with
      | [] => none
      | b1 :: _ =>
        if b / 4 + 64 * b1 < 64 then none
        else some (b / 4 + 64 * b1, 2)
    else if b % 4 = 2 then
      match rest with
      | b1 :: b2 :: b3 :: _ =>
        if b / 4 + 64 * b1 + 16384 * b2 + 4194304 * b3 < 16384 then none
        else some (b / 4 + 64 * b1 + 16384 * b2 + 4194304 * b3, 4)
      | _ => none
    else
      let numBytes := b / 4 + 4
      if 8 < numBytes then none
      else if rest.length < numBytes then none
      else
        let bytes := rest.take numBytes
        if leDecode bytes < 1073741824 then none
        else if bytes.getLast? = some 0 then none
        else some (leDecode bytes, numBytes + 1)

/-- Translation of `append_to_storage_value` (runtime_host.rs lines 920–959):
decode the SCALE-compact length prefix; on failure or on `n+1` overflowing
`usize`, reset to `encode(1) ‖ e`; otherwise re-encode `n+1`, prepend
`w′ − w` zero bytes, overwrite the first `w′` bytes with the new prefix and
append `e`. -/
def append_to_storage_value (value : Bytes) (toAdd : Bytes) : Bytes :=
  match nom_scale_compact_usize value with
  | none => encode_scale_compact_usize 1 ++ toAdd
  | some (currLen, currLenEncodedSize) =>
    if usizeMax ≤ currLen then encode_scale_compact_usize 1 ++ toAdd
    else
      let newLenEncoded := encode_scale_compact_usize (currLen + 1)
      let newLenEncodedSize := newLenEncoded.length
      let padded := List.replicate (newLenEncodedSize - currLenEncodedSize) 0 ++ value
      newLenEncoded ++ padded.drop newLenEncodedSize ++ toAdd

/-! ## The log sink -/

/-- The hard log ceiling: 1 MiB. -/
def logLimit : Nat := 1048576

/-- UTF-8 encoding of a Unicode scalar value, as Rust `String::push`. -/
def utf8Bytes (c : Nat) : Bytes :=
  if c < 128 then [c]
  else if c < 2048 then [192 + c / 64, 128 + c % 64]
  else if c < 65536 then [224 + c / 4096, 128 + c / 64 % 64, 128 + c % 64]
  else [240 + c / 262144, 128 + c / 4096 % 64, 128 + c / 64 % 64, 128 + c % 64]

/-- One write issued while formatting a `LogEmit` message: either a slice
write (`write_str`, with its UTF-8 bytes) or a character write
(`write_char`, with the Unicode scalar value). -/
inductive LogWrite where
  | str (s : Bytes)
  | char (c : Nat)

/-- `WriterWithMax::write_str` (runtime_host.rs lines 887–893): reject any
slice write that would push the buffer to ≥ 1 MiB. -/
def writeStr (buf : Bytes) (s : Bytes) : Option Bytes :=
  if logLimit ≤ buf.length + s.length then none else some (buf ++ s)

/-- `WriterWithMax::write_char` (runtime_host.rs lines 894–900): the check
counts the character as one byte, then pushes its UTF-8 encoding. -/
def writeChar (buf : Bytes) (c : Nat) : Option Bytes :=
  if logLimit ≤ buf.length + 1 then none else some (buf ++ utf8Bytes c)

/-- Dispatch of one formatting write to the writer. -/
def writeOne (buf : Bytes) : LogWrite → Option Bytes
  | .str s => writeStr buf s
  | .char c => writeChar buf c

/-- `fmt::write` through `WriterWithMax`: apply the message's writes in
order, stopping at the first rejection. -/
def writeAll (buf : Bytes) : List LogWrite → Option Bytes
  | [] => some buf
  | w :: rest => (writeOne buf w).bind fun buf' => writeAll buf' rest

/-! ## The virtual machine and the trie-root calculator

Both are opaque collaborators (spec §1).  Each is modelled as an inductive
tree: a node is the current externality request (with its data), and the
continuation fields give the machine's next state for every possible
resumption value. -/

/-- Which trie an externality targets (`host::Trie`); only the main trie is
serviced, child tries are stubbed. -/
inductive Trie where
  | MainTrie
  | ChildTrie
deriving DecidableEq

/-- State-trie entry version (`trie::TrieEntryVersion`). -/
inductive TrieEntryVersion where
  | V0
  | V1
deriving DecidableEq

/-- The trie-root calculator's suspension states
(`trie_root_calculator::InProgress`), an external collaborator: keys are
nibble strings; continuations model `inject`, `inject_value`,
`inject_merkle_value` and `resume_unknown`. -/
inductive RootCalcProgress where
  | ClosestDescendant (key : List Nat)
      (inject : Option (List Nat) → RootCalcProgress)
  | StorageValue (key : List Nat)
      (inject_value : Option (Bytes × TrieEntryVersion) → RootCalcProgress)
  | ClosestDescendantMerkleValue (key : List Nat)
      (inject_merkle_value : Bytes → RootCalcProgress)
      (resume_unknown : RootCalcProgress)
  | Finished (trie_root_hash : Bytes)

/-- The paused virtual machine (`host::HostVm`): one constructor per
externality handled by the driver loop, carrying the request data and the
resumption continuation.  `CallRuntimeVersion` carries the outcome of the
host-side compilation (an external operation) as data. -/
inductive HostVm where
  | ReadyToRun (next : HostVm)
  | Finished (value : Bytes)
  | Error
  | ExternalStorageGet (trie : Trie) (key : Bytes) (resume : Option Bytes → HostVm)
  | ExternalStorageSet (trie : Trie) (key : Bytes) (value : Option Bytes) (resume : HostVm)
  | ExternalStorageAppend (trie : Trie) (key : Bytes) (value : Bytes) (resume : HostVm)
  | ExternalStorageClearPfx (trie : Trie) (pfx : Bytes) (maxKeysToRemove : Option Nat)
      (resume : Nat → Bool → HostVm)
  | ExternalStorageRoot (trie : Trie) (resume : Option Bytes → HostVm)
  | ExternalStorageNextKey (trie : Trie) (key : Bytes) (resume : Option Bytes → HostVm)
  | ExternalOffchainStorageSet (key : Bytes) (value : Option Bytes) (resume : HostVm)
  | SignatureVerification (message sig publicKey : Bytes) (valid : Bool)
      (resume : Bool → HostVm)
  | CallRuntimeVersion (wasmCode : Bytes) (compileOutcome : Option Bytes)
      (resume : Option Bytes → HostVm)
  | StartStorageTransaction (resume : HostVm)
  | EndStorageTransaction (rollback : Bool) (resume : HostVm)
  | GetMaxLogLevel (resume : Nat → HostVm)
  | LogEmit (message : List LogWrite) (resume : HostVm)

/-- The driver state (`Inner`, runtime_host.rs lines 592–621).
`trie_root_calculator` models the external constructor
`trie_root_calculator::trie_root_calculator` applied to the cloned diff,
the state-trie version and the recalculation-depth hint. -/
structure Inner where
  vm : HostVm
  main_trie_changes : TrieDiff
  main_trie_transaction : List TrieDiff
  state_trie_version : TrieEntryVersion
  offchain_storage_changes : TrieDiff
  root_calculation : Option RootCalcProgress
  logs : Bytes
  max_log_level : Nat
  trie_root_calculator : TrieDiff → TrieEntryVersion → Nat → RootCalcProgress

/-- Execution success (`Success`), without the VM prototype handle. -/
structure Success where
  value : Bytes
  storage_main_trie_changes : TrieDiff
  state_trie_version : TrieEntryVersion
  offchain_storage_changes : TrieDiff
  logs : Bytes

/-- Terminal errors (`ErrorDetail`), without the VM prototype handle. -/
inductive ErrorDetail where
  | WasmVm (logs : Bytes)
  | LogsTooLong

/-- The `StorageGet` suspension handle. -/
structure StorageGet where
  inner : Inner

/-- The `NextKey` suspension handle (runtime_host.rs lines 302–312). -/
structure NextKey where
  inner : Inner
  key_overwrite : Option Bytes
  keys_removed_so_far : Nat

/-- The `ClosestDescendantMerkleValue` suspension handle. -/
structure ClosestDescendantMerkleValue where
  inner : Inner

/-- The `SignatureVerification` suspension handle. -/
structure SignatureVerification where
  inner : Inner

/-- The driver's public status (`RuntimeHostVm`). -/
inductive RuntimeHostVm where
  | Finished (result : Except ErrorDetail Success)
  | StorageGet (h : StorageGet)
  | ClosestDescendantMerkleValue (h : ClosestDescendantMerkleValue)
  | NextKey (h : NextKey)
  | SignatureVerification (h : SignatureVerification)

/-- Outcome of one iteration of the driver loop. -/
inductive StepResult where
  | next (st : Inner)
  | done (s : RuntimeHostVm)
  | violation

/-- Outcome of running the driver with fuel: `violation` models a Rust
panic (a failed assertion or unwrap), `outOfFuel` means the fuel ran out. -/
inductive RunResult where
  | ok (s : RuntimeHostVm)
  | violation
  | outOfFuel

/-- One iteration of the `Inner::run` loop (runtime_host.rs lines 625–915),
branch by branch in source order. -/
def Inner.step (st : Inner) : StepResult :=
  match st.vm with
  | .ReadyToRun next => .next { st with vm := next }
  | .Error => .done (.Finished (.error (.WasmVm st.logs)))
  | .Finished value =>
    .done (.Finished (.ok
      { value := value
        storage_main_trie_changes := st.main_trie_changes
        state_trie_version := st.state_trie_version
        offchain_storage_changes := st.offchain_storage_changes
        logs := st.logs }))
  | .ExternalStorageGet trie key resume =>
    match trie with
    | .ChildTrie => .next { st with vm := resume none }
    | .MainTrie =>
      match diff_get st.main_trie_changes key with
      | some overlay => .next { st with vm := resume overlay }
      | none => .done (.StorageGet { inner := st })
  | .ExternalStorageSet trie key value resume =>
    match trie with
    | .ChildTrie => .next { st with vm := resume }
    | .MainTrie =>
      match value with
      | some v =>
        .next { st with vm := resume,
                        main_trie_changes := diff_insert st.main_trie_changes key v }
      | none =>
        .next { st with vm := resume,
                        main_trie_changes := diff_insert_erase st.main_trie_changes key }
  | .ExternalStorageAppend trie key value resume =>
    match trie with
    | .ChildTrie => .next { st with vm := resume }
    | .MainTrie =>
      match diff_get st.main_trie_changes key with
      | some currentValue =>
        .next { st with vm := resume,
                        main_trie_changes :=
                          diff_insert st.main_trie_changes key
                            (append_to_storage_value (currentValue.getD []) value) }
      | none => .done (.StorageGet { inner := st })
  | .ExternalStorageClearPfx trie pfx _ resume =>
    match trie with
    | .ChildTrie => .next { st with vm := resume 0 false }
    | .MainTrie =>
      .done (.NextKey { inner := st, key_overwrite := some pfx, keys_removed_so_far := 0 })
  | .ExternalStorageRoot trie resume =>
    match trie with
    | .ChildTrie => .next { st with vm := resume none }
    | .MainTrie =>
      match st.root_calculation.getD
          (st.trie_root_calculator st.main_trie_changes st.state_trie_version 16) with
      | .ClosestDescendant key inject =>
        .done (.NextKey
          { inner := { st with root_calculation := some (.ClosestDescendant key inject) }
            key_overwrite := none
            keys_removed_so_far := 0 })
      | .StorageValue key inject_value =>
        if key.length % 2 = 0 then
          .done (.StorageGet
            { inner := { st with root_calculation := some (.StorageValue key inject_value) } })
        else
          .next { st with root_calculation := some (inject_value none) }
      | .ClosestDescendantMerkleValue key injectM resumeU =>
        .done (.ClosestDescendantMerkleValue
          { inner :=
              { st with
                root_calculation := some (.ClosestDescendantMerkleValue key injectM resumeU) } })
      | .Finished trie_root_hash =>
        .next { st with vm := resume (some trie_root_hash), root_calculation := none }
  | .ExternalStorageNextKey trie _ resume =>
    match trie with
    | .MainTrie =>
      .done (.NextKey { inner := st, key_overwrite := none, keys_removed_so_far := 0 })
    | .ChildTrie => .next { st with vm := resume none }
  | .ExternalOffchainStorageSet key value resume =>
    match value with
    | some v =>
      .next { st with vm := resume,
                      offchain_storage_changes :=
                        diff_insert st.offchain_storage_changes key v }
    | none =>
      .next { st with vm := resume,
                      offchain_storage_changes :=
                        diff_insert_erase st.offchain_storage_changes key }
  | .SignatureVerification _ _ _ _ _ => .done (.SignatureVerification { inner := st })
  | .CallRuntimeVersion _ compileOutcome resume =>
    match compileOutcome with
    | none => .next { st with vm := resume none }
    | some versionBytes => .next { st with vm := resume (some versionBytes) }
  | .StartStorageTransaction resume =>
    .next { st with vm := resume,
                    main_trie_transaction := st.main_trie_changes :: st.main_trie_transaction }
  | .EndStorageTransaction rollback resume =>
    match st.main_trie_transaction with
    | [] => .violation
    | top :: rest =>
      .next { st with vm := resume,
                      main_trie_transaction := rest,
                      main_trie_changes := if rollback then top else st.main_trie_changes }
  | .GetMaxLogLevel resume => .next { st with vm := resume st.max_log_level }
  | .LogEmit message resume =>
    match writeAll st.logs message with
    | some newLogs => .next { st with vm := resume, logs := newLogs }
    | none => .done (.Finished (.error .LogsTooLong))

/-- The `Inner::run` loop, fuel-indexed: each unit of fuel allows one loop
iteration. -/
def Inner.run : Nat → Inner → RunResult
  | 0, _ => .outOfFuel
  | fuel + 1, st =>
    match st.step with
    | .next st' => Inner.run fuel st'
    | .done s => .ok s
    | .violation => .violation

/-- `NextKey::key` (runtime_host.rs lines 316–336): the requested key, in
nibbles, from `key_overwrite` when set, else from the current externality. -/
def NextKey.keyFn (h : NextKey) : Option (List Nat) :=
  match h.key_overwrite with
  | some ko => some (bytes_to_nibbles ko)
  | none =>
    match h.inner.vm with
    | .ExternalStorageNextKey _ key _ => some (bytes_to_nibbles key)
    | .ExternalStorageRoot _ _ =>
      match h.inner.root_calculation with
      | some (.ClosestDescendant k _) => some k
      | _ => none
    | _ => none

/-- `NextKey::inject_key` (runtime_host.rs lines 371–447).  The answer is a
nibble string (or `none`); `fuel` bounds the driver loop re-entered at the
end.  A violated precondition (the `assert!`, or a mismatched state)
yields `violation`. -/
def NextKey.inject_key (fuel : Nat) (h : NextKey) (key : Option (List Nat)) : RunResult :=
  match h.inner.vm with
  | .ExternalStorageNextKey _ reqKey resume =>
    let keyBytes := key.map nibbles_to_bytes_suffix_extend
    let requested := match h.key_overwrite with
      | some ko => ko
      | none => reqKey
    match storage_next_key h.inner.main_trie_changes requested keyBytes false with
    | .Found k => Inner.run fuel { h.inner with vm := resume k }
    | .NextOf next =>
      .ok (.NextKey { inner := h.inner, key_overwrite := some next, keys_removed_so_far := 0 })
  | .ExternalStorageClearPfx _ pfx maxKeys resume =>
    match key with
    | some key =>
      let keyB := nibbles_to_bytes_suffix_extend key
      if pfx.isPrefixOf keyB then
        if (match maxKeys with
            | none => false
            | some mx => decide (mx ≤ h.keys_removed_so_far)) then
          Inner.run fuel { h.inner with vm := resume h.keys_removed_so_far true }
        else
          .ok (.NextKey
            { inner := { h.inner with
                main_trie_changes := diff_insert_erase h.inner.main_trie_changes keyB }
              key_overwrite := some keyB
              keys_removed_so_far := h.keys_removed_so_far + 1 })
      else .violation
    | none => Inner.run fuel { h.inner with vm := resume h.keys_removed_so_far false }
  | .ExternalStorageRoot _ _ =>
    match h.inner.root_calculation with
    | some (.ClosestDescendant _ inject) =>
      Inner.run fuel { h.inner with root_calculation := some (inject key) }
    | _ => .violation
  | _ => .violation

/-- `StorageGet::inject_value` (runtime_host.rs lines 253–299). -/
def StorageGet.inject_value (fuel : Nat) (h : StorageGet)
    (value : Option (Bytes × TrieEntryVersion)) : RunResult :=
  match h.inner.vm with
  | .ExternalStorageGet _ _ resume =>
    Inner.run fuel { h.inner with vm := resume (value.map Prod.fst) }
  | .ExternalStorageAppend _ key toAdd resume =>
    Inner.run fuel
      { h.inner with
        vm := resume
        main_trie_changes :=
          diff_insert h.inner.main_trie_changes key
            (append_to_storage_value ((value.map Prod.fst).getD []) toAdd) }
  | .ExternalStorageRoot _ _ =>
    match h.inner.root_calculation with
    | some (.StorageValue _ inject_value) =>
      Inner.run fuel { h.inner with root_calculation := some (inject_value value) }
    | _ => .violation
  | _ => .violation

/-! ## Client-interaction helpers and observers -/

/-- A client that enumerates backing-store keys in order during a
clear-prefix iteration: while the driver re-yields `NextKey`, feed the next
key of the list; when the list is exhausted, feed `none`. -/
def feedKeys (fuel : Nat) : RunResult → List Bytes → RunResult
  | .ok (.NextKey h), [] => NextKey.inject_key fuel h none
  | .ok (.NextKey h), k :: rest =>
    feedKeys fuel (NextKey.inject_key fuel h (some (bytes_to_nibbles k))) rest
  | r, _ => r

/-- A straight-line program of main-trie `ExternalStorageSet` externalities
followed by a continuation. -/
def setsProgram : List (Bytes × Option Bytes) → HostVm → HostVm
  | [], k => k
  | (key, value) :: rest, k =>
    .ExternalStorageSet .MainTrie key value (setsProgram rest k)

/-- The effect of `setsProgram` on an overlay diff. -/
def applySets (ws : List (Bytes × Option Bytes)) (d : TrieDiff) : TrieDiff :=
  ws.foldl (fun d kv =>
    match kv.2 with
    | some v => diff_insert d kv.1 v
    | none => diff_insert_erase d kv.1) d

/-- Erase a list of keys in the overlay, in order. -/
def eraseAll (ks : List Bytes) (d : TrieDiff) : TrieDiff :=
  ks.foldl diff_insert_erase d

/-- The log buffer visible in a status: carried by `Success`, by a
`WasmVm` error and by every suspension handle; a `LogsTooLong` error
surfaces no logs. -/
def RuntimeHostVm.logsOf : RuntimeHostVm → Option Bytes
  | .Finished (.ok s) => some s.logs
  | .Finished (.error (.WasmVm logs)) => some logs
  | .Finished (.error .LogsTooLong) => none
  | .StorageGet h => some h.inner.logs
  | .ClosestDescendantMerkleValue h => some h.inner.logs
  | .NextKey h => some h.inner.logs
  | .SignatureVerification h => some h.inner.logs

/-- The log buffer visible in a run outcome. -/
def RunResult.logsOf : RunResult → Option Bytes
  | .ok s => s.logsOf
  | _ => none

/-- Length of the log buffer visible in a run outcome. -/
def RunResult.logsLen (r : RunResult) : Option Nat := r.logsOf.map List.length

/-- The return value of a successfully finished run. -/
def RunResult.retValue : RunResult → Option Bytes
  | .ok (.Finished (.ok s)) => some s.value
  | _ => none

/-- Whether a run outcome is a `NextKey` suspension. -/
def RunResult.isNextKey : RunResult → Bool
  | .ok (.NextKey _) => true
  | _ => false

/-- Invariant 2 of the spec (§3): `root_calculation` is `Some` only while
the VM is in the main-trie `ExternalStorageRoot` externality. -/
def Inv2 (st : Inner) : Prop :=
  ∀ p, st.root_calculation = some p →
    ∃ resume, st.vm = HostVm.ExternalStorageRoot Trie.MainTrie resume

/-! ## Helper lemmas -/

theorem keyLt_false_cases : ∀ a b : Bytes, keyLt a b = false → keyLt b a = true ∨ a = b := by
  intro a
  induction a with
  | nil =>
    intro b h
    cases b with
    | nil => right; rfl
    | cons y ys => simp [keyLt] at h
  | cons x xs ih =>
    intro b h
    cases b with
    | nil => left; rfl
    | cons y ys =>
      rcases Nat.lt_trichotomy x y with hlt | heq | hgt
      · simp [keyLt, hlt] at h
      · subst heq
        simp [keyLt, Nat.lt_irrefl] at h ⊢
        rcases ih ys h with h' | h'
        · left; exact h'
        · right; exact h'
      · left; simp [keyLt, hgt, Nat.lt_asymm hgt]

theorem keyLt_irrefl : ∀ a : Bytes, keyLt a a = false := by
  intro a
  induction a with
  | nil => rfl
  | cons x xs ih => simp [keyLt, ih]

theorem diff_get_insert_entry_self :
    ∀ (d : TrieDiff) (k : Bytes) (v : Option Bytes),
      diff_get (diff_insert_entry d k v) k = some v := by
  intro d k v
  induction d with
  | nil => simp [diff_insert_entry, diff_get]
  | cons e rest ih =>
    obtain ⟨k', v'⟩ := e
    simp only [diff_insert_entry]
    split
    · simp [diff_get]
    · split
      · next heq => simp [diff_get, heq]
      · next hne =>
        simp only [diff_get]
        rw [if_neg (fun hk => hne hk.symm)]
        exact ih

theorem diff_get_insert_self (d : TrieDiff) (k : Bytes) (v : Bytes) :
    diff_get (diff_insert d k v) k = some (some v) :=
  diff_get_insert_entry_self d k (some v)

theorem nibbles_bytes_roundtrip :
    ∀ l : Bytes, nibbles_to_bytes_suffix_extend (bytes_to_nibbles l) = l := by
  intro l
  induction l with
  | nil => rfl
  | cons b rest ih =>
    simp only [bytes_to_nibbles, nibbles_to_bytes_suffix_extend, ih, List.cons.injEq, and_true]
    omega

theorem drop_replicate_append :
    ∀ (j w : Nat) (v : Bytes), (List.replicate j 0 ++ v).drop (j + w) = v.drop w := by
  intro j
  induction j with
  | zero => intro w v; simp
  | succ j ih =>
    intro w v
    have : j + 1 + w = (j + w) + 1 := by omega
    rw [this, List.replicate_succ, List.cons_append, List.drop_succ_cons]
    exact ih w v

theorem leBytes_length : ∀ (m n : Nat), (leBytes m n).length = m := by
  intro m
  induction m with
  | zero => intro n; rfl
  | succ m ih => intro n; simp [leBytes, ih]

theorem utf8Bytes_length_le (c : Nat) : (utf8Bytes c).length ≤ 4 := by
  unfold utf8Bytes
  split_ifs <;> simp

theorem writeAll_ok :
    ∀ (ws : List LogWrite) (buf out : Bytes), writeAll buf ws = some out →
      buf <+: out ∧ (out.length ≤ 1048578 ∨ out = buf) := by
  intro ws
  induction ws with
  | nil =>
    intro buf out h
    simp only [writeAll, Option.some.injEq] at h
    subst h
    exact ⟨List.prefix_refl _, Or.inr rfl⟩
  | cons w rest ih =>
    intro buf out h
    cases w with
    | str s =>
      simp only [writeAll, writeOne, writeStr] at h
      by_cases hle : logLimit ≤ buf.length + s.length
      · rw [if_pos hle] at h
        exact absurd h (by simp)
      · rw [if_neg hle] at h
        obtain ⟨h1, h2⟩ := ih (buf ++ s) out h
        refine ⟨(List.prefix_append buf s).trans h1, Or.inl ?_⟩
        rcases h2 with h2 | h2
        · exact h2
        · rw [h2]
          simp only [List.length_append]
          simp only [logLimit, not_le] at hle
          omega
    | char c =>
      simp only [writeAll, writeOne, writeChar] at h
      by_cases hle : logLimit ≤ buf.length + 1
      · rw [if_pos hle] at h
        exact absurd h (by simp)
      · rw [if_neg hle] at h
        obtain ⟨h1, h2⟩ := ih (buf ++ utf8Bytes c) out h
        refine ⟨(List.prefix_append buf _).trans h1, Or.inl ?_⟩
        rcases h2 with h2 | h2
        · exact h2
        · rw [h2]
          simp only [List.length_append]
          simp only [logLimit, not_le] at hle
          have := utf8Bytes_length_le c
          omega

theorem run_setsProgram :
    ∀ (ws : List (Bytes × Option Bytes)) (fuel : Nat) (st : Inner) (k : HostVm),
      Inner.run (fuel + ws.length) { st with vm := setsProgram ws k }
        = Inner.run fuel
            { st with vm := k, main_trie_changes := applySets ws st.main_trie_changes } := by
  intro ws
  induction ws with
  | nil => intro fuel st k; rfl
  | cons kv rest ih =>
    intro fuel st k
    obtain ⟨key, val⟩ := kv
    cases val with
    | none =>
      exact ih fuel { st with main_trie_changes := diff_insert_erase st.main_trie_changes key } k
    | some v =>
      exact ih fuel { st with main_trie_changes := diff_insert st.main_trie_changes key v } k

/-! ## Claim theorems -/

/-- C3: for every byte vector whose SCALE-compact length prefix fails to
decode (including the empty vector), and for every vector whose decoded
length `n` has `n+1` overflowing `usize`, `append_to_storage_value` resets
the value to `encode(1) ‖ e`. -/
theorem c3_append_malformed :
    ∀ (v e : Bytes),
      (nom_scale_compact_usize v = none →
        append_to_storage_value v e = encode_scale_compact_usize 1 ++ e)
      ∧ (∀ w, nom_scale_compact_usize v = some (usizeMax, w) →
        append_to_storage_value v e = encode_scale_compact_usize 1 ++ e) := by
  intro v e
  constructor
  · intro h
    unfold append_to_storage_value
    rw [h]
  · intro w h
    unfold append_to_storage_value
    rw [h]
    simp

/-- Witness for C3 at the empty vector and at a vector whose prefix decodes
to `usize::MAX` (so that `n+1` overflows). -/
theorem c3_append_malformed_witness :
    append_to_storage_value [] [7] = encode_scale_compact_usize 1 ++ [7]
    ∧ append_to_storage_value [19, 255, 255, 255, 255, 255, 255, 255, 255] [7]
        = encode_scale_compact_usize 1 ++ [7] :=
  ⟨(c3_append_malformed [] [7]).1 rfl,
   (c3_append_malformed [19, 255, 255, 255, 255, 255, 255, 255, 255] [7]).2 9 (by decide)⟩

/-- C5: a main-trie `ExternalStorageGet` whose key is in the overlay is
answered immediately from the overlay (an erasure resumes with "absent");
only a key absent from the overlay yields `NeedsStorage`; consequently a
program that sets `k := v` and then gets `k` observes `v` without a
`NeedsStorage` yield. -/
theorem c5_overlay_primacy :
    (∀ (fuel : Nat) (st : Inner) (key : Bytes) (resume : Option Bytes → HostVm)
        (overlay : Option Bytes),
      diff_get st.main_trie_changes key = some overlay →
      Inner.run (fuel + 1) { st with vm := .ExternalStorageGet .MainTrie key resume }
        = Inner.run fuel { st with vm := resume overlay })
    ∧ (∀ (fuel : Nat) (st : Inner) (key : Bytes) (resume : Option Bytes → HostVm),
      diff_get st.main_trie_changes key = none →
      Inner.run (fuel + 1) { st with vm := .ExternalStorageGet .MainTrie key resume }
        = .ok (.StorageGet
            { inner := { st with vm := .ExternalStorageGet .MainTrie key resume } }))
    ∧ (∀ (fuel : Nat) (st : Inner) (key value : Bytes) (resume : Option Bytes → HostVm),
      Inner.run (fuel + 2) { st with vm := HostVm.ExternalStorageSet Trie.MainTrie key (some value) (HostVm.ExternalStorageGet Trie.MainTrie key resume) }
        = Inner.run fuel
            { st with vm := resume (some value),
                      main_trie_changes := diff_insert st.main_trie_changes key value }) := by
  refine ⟨?_, ?_, ?_⟩
  · intro fuel st key resume overlay h
    rw [Inner.run]
    simp only [Inner.step]
    rw [h]
  · intro fuel st key resume h
    rw [Inner.run]
    simp only [Inner.step]
    rw [h]
  · intro fuel st key value resume
    rw [Inner.run]
    simp only [Inner.step]
    rw [Inner.run]
    simp only [Inner.step]
    rw [diff_get_insert_self]

/-- Witness for C5: a state whose overlay holds `[1] ↦ [9]`. -/
theorem c5_overlay_primacy_witness :
    Inner.run 1
        { vm := .ExternalStorageGet .MainTrie [1] (fun v => .Finished (v.getD []))
          main_trie_changes := [([1], some [9])]
          main_trie_transaction := []
          state_trie_version := .V0
          offchain_storage_changes := []
          root_calculation := none
          logs := []
          max_log_level := 0
          trie_root_calculator := fun _ _ _ => .Finished [] }
      = Inner.run 0
          { vm := HostVm.Finished [9]
            main_trie_changes := [([1], some [9])]
            main_trie_transaction := []
            state_trie_version := .V0
            offchain_storage_changes := []
            root_calculation := none
            logs := []
            max_log_level := 0
            trie_root_calculator := fun _ _ _ => .Finished [] } :=
  c5_overlay_primacy.1 0
    { vm := .ExternalStorageGet .MainTrie [1] (fun v => .Finished (v.getD []))
      main_trie_changes := [([1], some [9])]
      main_trie_transaction := []
      state_trie_version := .V0
      offchain_storage_changes := []
      root_calculation := none
      logs := []
      max_log_level := 0
      trie_root_calculator := fun _ _ _ => .Finished [] }
    [1] (fun v => .Finished (v.getD [])) (some [9]) rfl

/-- C6: `StartStorageTransaction` pushes a copy of the current main-trie
diff; `EndStorageTransaction` pops the top snapshot, restoring it on
rollback and discarding it on commit; hence for any sequence of
intervening writes, rollback restores the pre-transaction diff exactly
and commit keeps all the writes. -/
theorem c6_transactions :
    (∀ (fuel : Nat) (st : Inner) (k : HostVm),
      Inner.run (fuel + 1) { st with vm := .StartStorageTransaction k }
        = Inner.run fuel
            { st with vm := k,
                      main_trie_transaction := st.main_trie_changes :: st.main_trie_transaction })
    ∧ (∀ (fuel : Nat) (st : Inner) (k : HostVm) (top : TrieDiff) (rest : List TrieDiff),
      Inner.run (fuel + 1)
          { st with vm := .EndStorageTransaction true k,
                    main_trie_transaction := top :: rest }
        = Inner.run fuel
            { st with vm := k, main_trie_changes := top, main_trie_transaction := rest })
    ∧ (∀ (fuel : Nat) (st : Inner) (k : HostVm) (top : TrieDiff) (rest : List TrieDiff),
      Inner.run (fuel + 1)
          { st with vm := .EndStorageTransaction false k,
                    main_trie_transaction := top :: rest }
        = Inner.run fuel { st with vm := k, main_trie_transaction := rest })
    ∧ (∀ (fuel : Nat) (st : Inner) (ws : List (Bytes × Option Bytes)) (k : HostVm),
      Inner.run (fuel + (ws.length + 2))
          { st with
            vm := .StartStorageTransaction (setsProgram ws (.EndStorageTransaction true k)) }
        = Inner.run fuel { st with vm := k })
    ∧ (∀ (fuel : Nat) (st : Inner) (ws : List (Bytes × Option Bytes)) (k : HostVm),
      Inner.run (fuel + (ws.length + 2))
          { st with
            vm := .StartStorageTransaction (setsProgram ws (.EndStorageTransaction false k)) }
        = Inner.run fuel
            { st with vm := k,
                      main_trie_changes := applySets ws st.main_trie_changes }) := by
  have hstep : ∀ (fuel : Nat) (st : Inner) (ws : List (Bytes × Option Bytes)) (k : HostVm)
      (rollback : Bool),
      Inner.run (fuel + (ws.length + 2))
          { st with
            vm := .StartStorageTransaction (setsProgram ws (.EndStorageTransaction rollback k)) }
        = Inner.run fuel
            { st with vm := k,
                      main_trie_changes :=
                        if rollback then st.main_trie_changes
                        else applySets ws st.main_trie_changes } := by
    intro fuel st ws k rollback
    have h1 : fuel + (ws.length + 2) = ((fuel + 1) + ws.length) + 1 := by omega
    rw [h1, Inner.run]
    simp only [Inner.step]
    rw [run_setsProgram ws (fuel + 1)
      { st with main_trie_transaction := st.main_trie_changes :: st.main_trie_transaction }
      (.EndStorageTransaction rollback k)]
    cases rollback <;> rfl
  refine ⟨?_, ?_, ?_, ?_, ?_⟩
  · intro fuel st k
    rfl
  · intro fuel st k top rest
    rfl
  · intro fuel st k top rest
    rfl
  · intro fuel st ws k
    have := hstep fuel st ws k true
    simpa using this
  · intro fuel st ws k
    have := hstep fuel st ws k false
    simpa using this

/-- C10: a main-trie `ExternalStorageAppend` whose key is recorded as an
erasure in the overlay resumes immediately (no `NeedsStorage` yield, no
backing-store consultation) and writes `encode(1) ‖ e` to the overlay:
the erased prior value is treated as empty. -/
theorem c10_append_over_erasure :
    ∀ (fuel : Nat) (st : Inner) (key toAdd : Bytes) (resume : HostVm),
      diff_get st.main_trie_changes key = some none →
      Inner.run (fuel + 1) { st with vm := .ExternalStorageAppend .MainTrie key toAdd resume }
        = Inner.run fuel
            { st with vm := resume,
                      main_trie_changes :=
                        diff_insert st.main_trie_changes key
                          (encode_scale_compact_usize 1 ++ toAdd) } := by
  intro fuel st key toAdd resume h
  rw [Inner.run]
  simp only [Inner.step]
  rw [h]
  rfl

/-- Witness for C10: overlay `[1] ↦ erased`, appending `[7]` writes
`[4, 7]`. -/
theorem c10_append_over_erasure_witness :
    Inner.run 1
        { vm := .ExternalStorageAppend .MainTrie [1] [7] (.Finished [])
          main_trie_changes := [([1], none)]
          main_trie_transaction := []
          state_trie_version := .V0
          offchain_storage_changes := []
          root_calculation := none
          logs := []
          max_log_level := 0
          trie_root_calculator := fun _ _ _ => .Finished [] }
      = Inner.run 0
          { vm := HostVm.Finished []
            main_trie_changes := [([1], some [4, 7])]
            main_trie_transaction := []
            state_trie_version := .V0
            offchain_storage_changes := []
            root_calculation := none
            logs := []
            max_log_level := 0
            trie_root_calculator := fun _ _ _ => .Finished [] } :=
  c10_append_over_erasure 0
    { vm := .ExternalStorageAppend .MainTrie [1] [7] (.Finished [])
      main_trie_changes := [([1], none)]
      main_trie_transaction := []
      state_trie_version := .V0
      offchain_storage_changes := []
      root_calculation := none
      logs := []
      max_log_level := 0
      trie_root_calculator := fun _ _ _ => .Finished [] }
    [1] [7] (.Finished []) rfl

theorem clear_inject_none (fuel : Nat) (st : Inner) (pfx : Bytes) (maxKeys : Option Nat)
    (resume : Nat → Bool → HostVm) (ko : Option Bytes) (r : Nat)
    (hvm : st.vm = .ExternalStorageClearPfx .MainTrie pfx maxKeys resume) :
    NextKey.inject_key fuel { inner := st, key_overwrite := ko, keys_removed_so_far := r } none
      = Inner.run fuel { st with vm := resume r false } := by
  unfold NextKey.inject_key
  simp only [hvm]

theorem clear_inject_cap (fuel : Nat) (st : Inner) (pfx : Bytes) (m : Nat)
    (resume : Nat → Bool → HostVm) (ko : Option Bytes) (r : Nat) (ans : List Nat)
    (hvm : st.vm = .ExternalStorageClearPfx .MainTrie pfx (some m) resume)
    (hpf : pfx.isPrefixOf (nibbles_to_bytes_suffix_extend ans) = true)
    (hm : m ≤ r) :
    NextKey.inject_key fuel { inner := st, key_overwrite := ko, keys_removed_so_far := r }
        (some ans)
      = Inner.run fuel { st with vm := resume r true } := by
  unfold NextKey.inject_key
  simp only [hvm, hpf, decide_eq_true hm]
  simp

theorem clear_inject_erase (fuel : Nat) (st : Inner) (pfx : Bytes) (maxKeys : Option Nat)
    (resume : Nat → Bool → HostVm) (ko : Option Bytes) (r : Nat) (ans : List Nat)
    (hvm : st.vm = .ExternalStorageClearPfx .MainTrie pfx maxKeys resume)
    (hpf : pfx.isPrefixOf (nibbles_to_bytes_suffix_extend ans) = true)
    (hmax : ∀ m, maxKeys = some m → r < m) :
    NextKey.inject_key fuel { inner := st, key_overwrite := ko, keys_removed_so_far := r }
        (some ans)
      = .ok (.NextKey { inner := { st with main_trie_changes := diff_insert_erase st.main_trie_changes (nibbles_to_bytes_suffix_extend ans) }, key_overwrite := some (nibbles_to_bytes_suffix_extend ans), keys_removed_so_far := r + 1 }) := by
  unfold NextKey.inject_key
  simp only [hvm, hpf]
  cases maxKeys with
  | none => simp
  | some m =>
    have : ¬ (m ≤ r) := by
      have := hmax m rfl
      omega
    simp [this]

/-- C7: during an `ExternalStorageClearPrefix` externality, `inject_key`
resumes the VM with `(keys_removed, false)` on answer `None`; on an answer
starting with the externality's prefix it resumes with `(keys_removed,
true)` without erasing once `keys_removed ≥ max`, and otherwise erases the
key in the overlay, increments the counter, sets `key_overwrite` to the
key and re-yields `NeedsNextKey`. -/
theorem c7_clear_pfx_inject :
    (∀ (fuel : Nat) (st : Inner) (pfx : Bytes) (maxKeys : Option Nat)
        (resume : Nat → Bool → HostVm) (ko : Option Bytes) (r : Nat),
      st.vm = .ExternalStorageClearPfx .MainTrie pfx maxKeys resume →
      NextKey.inject_key fuel { inner := st, key_overwrite := ko, keys_removed_so_far := r } none
        = Inner.run fuel { st with vm := resume r false })
    ∧ (∀ (fuel : Nat) (st : Inner) (pfx : Bytes) (m : Nat)
        (resume : Nat → Bool → HostVm) (ko : Option Bytes) (r : Nat) (ans : List Nat),
      st.vm = .ExternalStorageClearPfx .MainTrie pfx (some m) resume →
      pfx.isPrefixOf (nibbles_to_bytes_suffix_extend ans) = true →
      m ≤ r →
      NextKey.inject_key fuel { inner := st, key_overwrite := ko, keys_removed_so_far := r }
          (some ans)
        = Inner.run fuel { st with vm := resume r true })
    ∧ (∀ (fuel : Nat) (st : Inner) (pfx : Bytes) (maxKeys : Option Nat)
        (resume : Nat → Bool → HostVm) (ko : Option Bytes) (r : Nat) (ans : List Nat),
      st.vm = .ExternalStorageClearPfx .MainTrie pfx maxKeys resume →
      pfx.isPrefixOf (nibbles_to_bytes_suffix_extend ans) = true →
      (∀ m, maxKeys = some m → r < m) →
      NextKey.inject_key fuel { inner := st, key_overwrite := ko, keys_removed_so_far := r }
          (some ans)
        = .ok (.NextKey { inner := { st with main_trie_changes := diff_insert_erase st.main_trie_changes (nibbles_to_bytes_suffix_extend ans) }, key_overwrite := some (nibbles_to_bytes_suffix_extend ans), keys_removed_so_far := r + 1 })) := by
  refine ⟨?_, ?_, ?_⟩
  · intro fuel st pfx maxKeys resume ko r hvm
    exact clear_inject_none fuel st pfx maxKeys resume ko r hvm
  · intro fuel st pfx m resume ko r ans hvm hpf hm
    exact clear_inject_cap fuel st pfx m resume ko r ans hvm hpf hm
  · intro fuel st pfx maxKeys resume ko r ans hvm hpf hmax
    exact clear_inject_erase fuel st pfx maxKeys resume ko r ans hvm hpf hmax

/-- Witness for C7: prefix `[5]`, `max = 1`; answer `None` at counter 0,
a capped answer at counter 1, and an eraseing answer at counter 0. -/
theorem c7_clear_pfx_inject_witness :
    (NextKey.inject_key 1
        { inner :=
            { vm := .ExternalStorageClearPfx .MainTrie [5] (some 1)
                (fun r b => .Finished (r :: (if b then [1] else [0])))
              main_trie_changes := []
              main_trie_transaction := []
              state_trie_version := .V0
              offchain_storage_changes := []
              root_calculation := none
              logs := []
              max_log_level := 0
              trie_root_calculator := fun _ _ _ => .Finished [] }
          key_overwrite := some [5]
          keys_removed_so_far := 0 } none).retValue = some [0, 0]
    ∧ (NextKey.inject_key 1
        { inner :=
            { vm := .ExternalStorageClearPfx .MainTrie [5] (some 1)
                (fun r b => .Finished (r :: (if b then [1] else [0])))
              main_trie_changes := []
              main_trie_transaction := []
              state_trie_version := .V0
              offchain_storage_changes := []
              root_calculation := none
              logs := []
              max_log_level := 0
              trie_root_calculator := fun _ _ _ => .Finished [] }
          key_overwrite := some [5]
          keys_removed_so_far := 1 } (some [0, 5, 0, 1])).retValue = some [1, 1]
    ∧ NextKey.inject_key 1
        { inner :=
            { vm := .ExternalStorageClearPfx .MainTrie [5] (some 1)
                (fun r b => .Finished (r :: (if b then [1] else [0])))
              main_trie_changes := []
              main_trie_transaction := []
              state_trie_version := .V0
              offchain_storage_changes := []
              root_calculation := none
              logs := []
              max_log_level := 0
              trie_root_calculator := fun _ _ _ => .Finished [] }
          key_overwrite := some [5]
          keys_removed_so_far := 0 } (some [0, 5, 0, 1])
      = .ok (.NextKey { inner := { vm := .ExternalStorageClearPfx .MainTrie [5] (some 1) (fun r b => .Finished (r :: (if b then [1] else [0]))), main_trie_changes := [([5, 1], none)], main_trie_transaction := [], state_trie_version := .V0, offchain_storage_changes := [], root_calculation := none, logs := [], max_log_level := 0, trie_root_calculator := fun _ _ _ => .Finished [] }, key_overwrite := some [5, 1], keys_removed_so_far := 1 }) := by
  refine ⟨?_, ?_, ?_⟩
  · rw [c7_clear_pfx_inject.1 1 _ [5] (some 1)
      (fun r b => .Finished (r :: (if b then [1] else [0]))) (some [5]) 0 rfl]
    rfl
  · rw [c7_clear_pfx_inject.2.1 1 _ [5] 1
      (fun r b => .Finished (r :: (if b then [1] else [0]))) (some [5]) 1 [0, 5, 0, 1] rfl
      (by decide) (by omega)]
    rfl
  · rw [c7_clear_pfx_inject.2.2 1 _ [5] (some 1)
      (fun r b => .Finished (r :: (if b then [1] else [0]))) (some [5]) 0 [0, 5, 0, 1] rfl
      (by decide) (fun m hm => by cases hm; omega)]
    rfl

/-- C9 (amended): during an `ExternalStorageNextKey` externality,
`inject_key` consults `storage_next_key` with `inclusive = false`;
`Found(k)` resumes the VM with `k`, `NextOf(k)` re-yields a `NeedsNextKey`
whose `key_overwrite` is `k` (so `key()` returns `k`).  For an
overlay-inserted key `k` greater than every backing-store key, the VM is
resumed with `k` whenever the backing store answers `none` or a key that
is not below `k`; (the claim's stronger "whatever the backing store
answers" fails: an answer strictly between the queried key and `k` is
returned to the VM instead, see the counterexample). -/
theorem c9_next_key :
    (∀ (fuel : Nat) (st : Inner) (reqKey : Bytes) (resume : Option Bytes → HostVm)
        (ko : Option Bytes) (r : Nat) (ans : Option (List Nat)) (k : Option Bytes),
      st.vm = .ExternalStorageNextKey .MainTrie reqKey resume →
      storage_next_key st.main_trie_changes (ko.getD reqKey)
          (ans.map nibbles_to_bytes_suffix_extend) false = .Found k →
      NextKey.inject_key fuel { inner := st, key_overwrite := ko, keys_removed_so_far := r } ans
        = Inner.run fuel { st with vm := resume k })
    ∧ (∀ (fuel : Nat) (st : Inner) (reqKey : Bytes) (resume : Option Bytes → HostVm)
        (ko : Option Bytes) (r : Nat) (ans : Option (List Nat)) (nk : Bytes),
      st.vm = .ExternalStorageNextKey .MainTrie reqKey resume →
      storage_next_key st.main_trie_changes (ko.getD reqKey)
          (ans.map nibbles_to_bytes_suffix_extend) false = .NextOf nk →
      NextKey.inject_key fuel { inner := st, key_overwrite := ko, keys_removed_so_far := r } ans
          = .ok (.NextKey { inner := st, key_overwrite := some nk, keys_removed_so_far := 0 })
        ∧ NextKey.keyFn { inner := st, key_overwrite := some nk, keys_removed_so_far := 0 }
            = some (bytes_to_nibbles nk))
    ∧ (∀ (fuel : Nat) (st : Inner) (reqKey : Bytes) (resume : Option Bytes → HostVm)
        (k v : Bytes) (ans : Option Bytes),
      st.vm = .ExternalStorageNextKey .MainTrie reqKey resume →
      st.main_trie_changes = [(k, some v)] →
      keyLt reqKey k = true →
      (ans = none ∨ ∃ a, ans = some a ∧ keyLt a k = false) →
      NextKey.inject_key fuel { inner := st, key_overwrite := none, keys_removed_so_far := 0 }
          (ans.map bytes_to_nibbles)
        = Inner.run fuel { st with vm := resume (some k) }) := by
  refine ⟨?_, ?_, ?_⟩
  · intro fuel st reqKey resume ko r ans k hvm hsnk
    unfold NextKey.inject_key
    simp only [hvm]
    cases ko with
    | none =>
      simp only [Option.getD_none] at hsnk
      rw [hsnk]
    | some ko =>
      simp only [Option.getD_some] at hsnk
      rw [hsnk]
  · intro fuel st reqKey resume ko r ans nk hvm hsnk
    constructor
    · unfold NextKey.inject_key
      simp only [hvm]
      cases ko with
      | none =>
        simp only [Option.getD_none] at hsnk
        rw [hsnk]
      | some ko =>
        simp only [Option.getD_some] at hsnk
        rw [hsnk]
    · rfl
  · intro fuel st reqKey resume k v ans hvm hmain hlt hans
    unfold NextKey.inject_key
    simp only [hvm, hmain]
    rcases hans with hnone | ⟨a, hsome, hka⟩
    · subst hnone
      simp only [Option.map_none']
      unfold storage_next_key
      simp only [List.filter, hlt, Bool.true_or]
      unfold storage_next_key_go
      rfl
    · subst hsome
      simp only [Option.map_some', nibbles_bytes_roundtrip]
      unfold storage_next_key
      simp only [List.filter, hlt, Bool.true_or]
      unfold storage_next_key_go
      rw [if_neg (by simp [hka])]
      rcases keyLt_false_cases a k hka with hk | hk
      · rw [if_pos (by simp [hk])]
        rfl
      · subst hk
        rw [if_neg (by simp [keyLt_irrefl])]
        rfl

/-- Witness for C9: overlay `[2] ↦ inserted`, next-key query after `[0]`,
backing store exhausted (`none` answered); the VM is resumed with `[2]`. -/
theorem c9_next_key_witness :
    (NextKey.inject_key 1
        { inner :=
            { vm := .ExternalStorageNextKey .MainTrie [0] (fun kk => .Finished (kk.getD [255]))
              main_trie_changes := [([2], some [9])]
              main_trie_transaction := []
              state_trie_version := .V0
              offchain_storage_changes := []
              root_calculation := none
              logs := []
              max_log_level := 0
              trie_root_calculator := fun _ _ _ => .Finished [] }
          key_overwrite := none
          keys_removed_so_far := 0 } none).retValue = some [2] :=
  (congrArg RunResult.retValue
    (c9_next_key.2.2 1
      { vm := .ExternalStorageNextKey .MainTrie [0] (fun kk => .Finished (kk.getD [255]))
        main_trie_changes := [([2], some [9])]
        main_trie_transaction := []
        state_trie_version := .V0
        offchain_storage_changes := []
        root_calculation := none
        logs := []
        max_log_level := 0
        trie_root_calculator := fun _ _ _ => .Finished [] }
      [0] (fun kk => .Finished (kk.getD [255])) [2] [9] none rfl rfl rfl (Or.inl rfl))).trans rfl

/-- Counterexample for C9 as stated: the overlay holds the inserted key
`[2]`, greater than the only backing-store key `[1]`; the VM asks for the
key after `[0]` and the backing store truthfully answers `[1]` (as nibbles
`[0, 1]`).  The claim says the VM is ultimately resumed with `[2]`
"whatever the backing store answers", but the driver resumes it with
`[1]`. -/
theorem c9_next_key_counterexample :
    (NextKey.inject_key 1
        { inner :=
            { vm := .ExternalStorageNextKey .MainTrie [0] (fun kk => .Finished (kk.getD [255]))
              main_trie_changes := [([2], some [9])]
              main_trie_transaction := []
              state_trie_version := .V0
              offchain_storage_changes := []
              root_calculation := none
              logs := []
              max_log_level := 0
              trie_root_calculator := fun _ _ _ => .Finished [] }
          key_overwrite := none
          keys_removed_so_far := 0 } (some [0, 1])).retValue = some [1] := rfl

theorem feedKeys_not_next :
    ∀ (fuel : Nat) (r : RunResult) (l : List Bytes),
      r.isNextKey = false → feedKeys fuel r l = r := by
  intro fuel r l h
  cases l with
  | nil =>
    cases r with
    | ok s => cases s with
      | NextKey nk => simp [RunResult.isNextKey] at h
      | Finished res => rfl
      | StorageGet g => rfl
      | ClosestDescendantMerkleValue g => rfl
      | SignatureVerification g => rfl
    | violation => rfl
    | outOfFuel => rfl
  | cons k rest =>
    cases r with
    | ok s => cases s with
      | NextKey nk => simp [RunResult.isNextKey] at h
      | Finished res => rfl
      | StorageGet g => rfl
      | ClosestDescendantMerkleValue g => rfl
      | SignatureVerification g => rfl
    | violation => rfl
    | outOfFuel => rfl

theorem feedKeys_go :
    ∀ (ks : List Bytes) (j : Nat) (st : Inner) (pfx : Bytes) (m : Nat)
      (resume : Nat → Bool → HostVm) (ko : Option Bytes) (fuel : Nat),
      st.vm = .ExternalStorageClearPfx .MainTrie pfx (some m) resume →
      (∀ k ∈ ks, pfx.isPrefixOf k = true) →
      (∀ r b d,
        (Inner.run fuel { st with vm := resume r b, main_trie_changes := d }).isNextKey
          = false) →
      j ≤ m →
      feedKeys fuel
          (.ok (.NextKey { inner := st, key_overwrite := ko, keys_removed_so_far := j })) ks
        = Inner.run fuel { st with vm := resume (min (j + ks.length) m) (decide (m < j + ks.length)), main_trie_changes := eraseAll (ks.take (m - j)) st.main_trie_changes } := by
  intro ks
  induction ks with
  | nil =>
    intro j st pfx m resume ko fuel hvm _ _ hj
    show NextKey.inject_key fuel
        { inner := st, key_overwrite := ko, keys_removed_so_far := j } none = _
    rw [clear_inject_none fuel st pfx (some m) resume ko j hvm]
    simp only [List.length_nil, List.take_nil]
    have h1 : (j + 0) ⊓ m = j := by omega
    have h2 : decide (m < j + 0) = false := by
      rw [decide_eq_false]
      omega
    rw [h1, h2]
    rfl
  | cons k rest ih =>
    intro j st pfx m resume ko fuel hvm hks hq hj
    have hpk : pfx.isPrefixOf k = true := hks k (List.mem_cons_self k rest)
    have hpkn : pfx.isPrefixOf (nibbles_to_bytes_suffix_extend (bytes_to_nibbles k)) = true := by
      rw [nibbles_bytes_roundtrip]
      exact hpk
    show feedKeys fuel
        (NextKey.inject_key fuel
          { inner := st, key_overwrite := ko, keys_removed_so_far := j }
          (some (bytes_to_nibbles k))) rest = _
    simp only [List.length_cons]
    by_cases hm : m ≤ j
    · rw [clear_inject_cap fuel st pfx m resume ko j (bytes_to_nibbles k) hvm hpkn hm]
      rw [feedKeys_not_next fuel _ rest (hq j true st.main_trie_changes)]
      have h1 : (j + (rest.length + 1)) ⊓ m = j := by omega
      have h2 : decide (m < j + (rest.length + 1)) = true := by
        rw [decide_eq_true_eq]
        omega
      rw [h1, h2]
      have h3 : m - j = 0 := by omega
      rw [h3, List.take_zero]
      rfl
    · have hjm : j < m := by omega
      rw [clear_inject_erase fuel st pfx (some m) resume ko j (bytes_to_nibbles k) hvm hpkn
        (fun m' hm' => by cases hm'; omega)]
      rw [nibbles_bytes_roundtrip]
      rw [ih (j + 1)
        { st with main_trie_changes := diff_insert_erase st.main_trie_changes k }
        pfx m resume (some k) fuel hvm (fun k' hk' => hks k' (List.mem_cons_of_mem k hk'))
        hq (by omega)]
      have h1 : j + 1 + rest.length = j + (rest.length + 1) := by omega
      rw [h1]
      have h2 : m - j = (m - (j + 1)) + 1 := by omega
      rw [h2, List.take_succ_cons]
      rfl

/-- C8 (amended): for `ClearPrefix(p, max = m)` driven to completion by a
client that enumerates the backing store's matching keys in order (and
whose program does not immediately ask another next-key question), the
driver erases exactly the first `min(n, m)` keys — so at most `m` — and
resumes the VM with counter `min(n, m)` and a flag that is true iff
strictly more than `m` keys matched.  (The claim's "flag false iff at
least `m` keys matched" fails at `n < m`, see the counterexample.) -/
theorem c8_clear_pfx_cap :
    ∀ (fuel : Nat) (st : Inner) (pfx : Bytes) (m : Nat) (resume : Nat → Bool → HostVm)
      (ks : List Bytes),
      st.vm = .ExternalStorageClearPfx .MainTrie pfx (some m) resume →
      (∀ k ∈ ks, pfx.isPrefixOf k = true) →
      (∀ r b d,
        (Inner.run fuel { st with vm := resume r b, main_trie_changes := d }).isNextKey
          = false) →
      feedKeys fuel (Inner.run 1 st) ks
        = Inner.run fuel { st with vm := resume (min ks.length m) (decide (m < ks.length)), main_trie_changes := eraseAll (ks.take m) st.main_trie_changes } := by
  intro fuel st pfx m resume ks hvm hks hq
  obtain ⟨vm, mtc, mtt, stv, osc, rc, lg, mll, trc⟩ := st
  simp only at hvm
  subst hvm
  have h0 : Inner.run 1
      { vm := HostVm.ExternalStorageClearPfx Trie.MainTrie pfx (some m) resume,
        main_trie_changes := mtc, main_trie_transaction := mtt, state_trie_version := stv,
        offchain_storage_changes := osc, root_calculation := rc, logs := lg,
        max_log_level := mll, trie_root_calculator := trc }
      = .ok (.NextKey
          { inner := { vm := HostVm.ExternalStorageClearPfx Trie.MainTrie pfx (some m) resume, main_trie_changes := mtc, main_trie_transaction := mtt, state_trie_version := stv, offchain_storage_changes := osc, root_calculation := rc, logs := lg, max_log_level := mll, trie_root_calculator := trc }
            key_overwrite := some pfx
            keys_removed_so_far := 0 }) := rfl
  rw [h0]
  have := feedKeys_go ks 0
    { vm := HostVm.ExternalStorageClearPfx Trie.MainTrie pfx (some m) resume,
      main_trie_changes := mtc, main_trie_transaction := mtt, state_trie_version := stv,
      offchain_storage_changes := osc, root_calculation := rc, logs := lg,
      max_log_level := mll, trie_root_calculator := trc }
    pfx m resume (some pfx) fuel rfl hks hq (Nat.zero_le m)
  simpa using this

/-- Witness for C8: prefix `[5]`, `max = 1`, two matching backing keys
`[5,1]`, `[5,2]`; the VM is resumed with `(1, true)`. -/
theorem c8_clear_pfx_cap_witness :
    (feedKeys 1
        (Inner.run 1
          { vm := .ExternalStorageClearPfx .MainTrie [5] (some 1)
              (fun r b => .Finished (r :: (if b then [1] else [0])))
            main_trie_changes := []
            main_trie_transaction := []
            state_trie_version := .V0
            offchain_storage_changes := []
            root_calculation := none
            logs := []
            max_log_level := 0
            trie_root_calculator := fun _ _ _ => .Finished [] })
        [[5, 1], [5, 2]]).retValue = some [1, 1] := by
  rw [c8_clear_pfx_cap 1
    { vm := .ExternalStorageClearPfx .MainTrie [5] (some 1)
        (fun r b => .Finished (r :: (if b then [1] else [0])))
      main_trie_changes := []
      main_trie_transaction := []
      state_trie_version := .V0
      offchain_storage_changes := []
      root_calculation := none
      logs := []
      max_log_level := 0
      trie_root_calculator := fun _ _ _ => .Finished [] }
    [5] 1 (fun r b => .Finished (r :: (if b then [1] else [0]))) [[5, 1], [5, 2]] rfl
    (by decide) (fun r b d => rfl)]
  rfl

/-- Counterexample for C8 as stated: `ClearPrefix([5], max = 1)` over a
backing store with no matching key.  Zero keys matched (fewer than
`m = 1`), so by the claim the flag should not be false — yet the driver
resumes the VM with `(0, false)` (the continuation encodes the flag as
the second element). -/
theorem c8_clear_pfx_cap_counterexample :
    (feedKeys 1
        (Inner.run 1
          { vm := .ExternalStorageClearPfx .MainTrie [5] (some 1)
              (fun r b => .Finished (r :: (if b then [1] else [0])))
            main_trie_changes := []
            main_trie_transaction := []
            state_trie_version := .V0
            offchain_storage_changes := []
            root_calculation := none
            logs := []
            max_log_level := 0
            trie_root_calculator := fun _ _ _ => .Finished [] })
        []).retValue = some [0, 0] := rfl

theorem step_inv2 : ∀ (st st' : Inner), Inv2 st → st.step = .next st' → Inv2 st' := by
  intro st st' hinv h
  obtain ⟨vm, mtc, mtt, stv, osc, rc, lg, mll, trc⟩ := st
  cases vm with
  | ReadyToRun next =>
    simp only [Inner.step, StepResult.next.injEq] at h
    subst h
    intro p hp
    obtain ⟨r, hr⟩ := hinv p hp
    simp at hr
  | Finished v => simp [Inner.step] at h
  | Error => simp [Inner.step] at h
  | ExternalStorageGet trie key resume =>
    cases trie with
    | ChildTrie =>
      simp only [Inner.step, StepResult.next.injEq] at h
      subst h
      intro p hp
      obtain ⟨r, hr⟩ := hinv p hp
      simp at hr
    | MainTrie =>
      simp only [Inner.step] at h
      cases hg : diff_get mtc key with
      | some overlay =>
        rw [hg] at h
        simp only [StepResult.next.injEq] at h
        subst h
        intro p hp
        obtain ⟨r, hr⟩ := hinv p hp
        simp at hr
      | none =>
        rw [hg] at h
        simp at h
  | ExternalStorageSet trie key value resume =>
    cases trie with
    | ChildTrie =>
      simp only [Inner.step, StepResult.next.injEq] at h
      subst h
      intro p hp
      obtain ⟨r, hr⟩ := hinv p hp
      simp at hr
    | MainTrie =>
      cases value with
      | some v =>
        simp only [Inner.step, StepResult.next.injEq] at h
        subst h
        intro p hp
        obtain ⟨r, hr⟩ := hinv p hp
        simp at hr
      | none =>
        simp only [Inner.step, StepResult.next.injEq] at h
        subst h
        intro p hp
        obtain ⟨r, hr⟩ := hinv p hp
        simp at hr
  | ExternalStorageAppend trie key value resume =>
    cases trie with
    | ChildTrie =>
      simp only [Inner.step, StepResult.next.injEq] at h
      subst h
      intro p hp
      obtain ⟨r, hr⟩ := hinv p hp
      simp at hr
    | MainTrie =>
      simp only [Inner.step] at h
      cases hg : diff_get mtc key with
      | some currentValue =>
        rw [hg] at h
        simp only [StepResult.next.injEq] at h
        subst h
        intro p hp
        obtain ⟨r, hr⟩ := hinv p hp
        simp at hr
      | none =>
        rw [hg] at h
        simp at h
  | ExternalStorageClearPfx trie pfx maxKeys resume =>
    cases trie with
    | ChildTrie =>
      simp only [Inner.step, StepResult.next.injEq] at h
      subst h
      intro p hp
      obtain ⟨r, hr⟩ := hinv p hp
      simp at hr
    | MainTrie => simp [Inner.step] at h
  | ExternalStorageRoot trie resume =>
    cases trie with
    | ChildTrie =>
      simp only [Inner.step, StepResult.next.injEq] at h
      subst h
      intro p hp
      obtain ⟨r, hr⟩ := hinv p hp
      simp at hr
    | MainTrie =>
      simp only [Inner.step] at h
      split at h
      · simp at h
      · split at h
        · simp at h
        · simp only [StepResult.next.injEq] at h
          subst h
          intro p hp
          exact ⟨resume, rfl⟩
      · simp at h
      · simp only [StepResult.next.injEq] at h
        subst h
        intro p hp
        simp at hp
  | ExternalStorageNextKey trie key resume =>
    cases trie with
    | ChildTrie =>
      simp only [Inner.step, StepResult.next.injEq] at h
      subst h
      intro p hp
      obtain ⟨r, hr⟩ := hinv p hp
      simp at hr
    | MainTrie => simp [Inner.step] at h
  | ExternalOffchainStorageSet key value resume =>
    cases value with
    | some v =>
      simp only [Inner.step, StepResult.next.injEq] at h
      subst h
      intro p hp
      obtain ⟨r, hr⟩ := hinv p hp
      simp at hr
    | none =>
      simp only [Inner.step, StepResult.next.injEq] at h
      subst h
      intro p hp
      obtain ⟨r, hr⟩ := hinv p hp
      simp at hr
  | SignatureVerification msg sig pk valid resume => simp [Inner.step] at h
  | CallRuntimeVersion code outcome resume =>
    cases outcome with
    | some versionBytes =>
      simp only [Inner.step, StepResult.next.injEq] at h
      subst h
      intro p hp
      obtain ⟨r, hr⟩ := hinv p hp
      simp at hr
    | none =>
      simp only [Inner.step, StepResult.next.injEq] at h
      subst h
      intro p hp
      obtain ⟨r, hr⟩ := hinv p hp
      simp at hr
  | StartStorageTransaction resume =>
    simp only [Inner.step, StepResult.next.injEq] at h
    subst h
    intro p hp
    obtain ⟨r, hr⟩ := hinv p hp
    simp at hr
  | EndStorageTransaction rollback resume =>
    cases mtt with
    | nil => simp [Inner.step] at h
    | cons top rest =>
      simp only [Inner.step, StepResult.next.injEq] at h
      subst h
      intro p hp
      obtain ⟨r, hr⟩ := hinv p hp
      simp at hr
  | GetMaxLogLevel resume =>
    simp only [Inner.step, StepResult.next.injEq] at h
    subst h
    intro p hp
    obtain ⟨r, hr⟩ := hinv p hp
    simp at hr
  | LogEmit message resume =>
    simp only [Inner.step] at h
    cases hw : writeAll lg message with
    | some newLogs =>
      rw [hw] at h
      simp only [StepResult.next.injEq] at h
      subst h
      intro p hp
      obtain ⟨r, hr⟩ := hinv p hp
      simp at hr
    | none =>
      rw [hw] at h
      simp at h

theorem step_storageGet_rootcalc :
    ∀ (st : Inner) (g : StorageGet), Inv2 st → st.step = .done (.StorageGet g) →
      ∀ p, g.inner.root_calculation = some p →
        ∃ k inj, p = .StorageValue k inj ∧ k.length % 2 = 0 := by
  intro st g hinv h
  obtain ⟨vm, mtc, mtt, stv, osc, rc, lg, mll, trc⟩ := st
  cases vm with
  | ReadyToRun next => simp [Inner.step] at h
  | Finished v => simp [Inner.step] at h
  | Error => simp [Inner.step] at h
  | ExternalStorageGet trie key resume =>
    cases trie with
    | ChildTrie => simp [Inner.step] at h
    | MainTrie =>
      simp only [Inner.step] at h
      cases hg : diff_get mtc key with
      | some overlay => rw [hg] at h; simp at h
      | none =>
        rw [hg] at h
        simp only [StepResult.done.injEq, RuntimeHostVm.StorageGet.injEq] at h
        subst h
        intro p hp
        obtain ⟨r, hr⟩ := hinv p hp
        simp at hr
  | ExternalStorageSet trie key value resume =>
    cases trie with
    | ChildTrie => simp [Inner.step] at h
    | MainTrie => cases value <;> simp [Inner.step] at h
  | ExternalStorageAppend trie key value resume =>
    cases trie with
    | ChildTrie => simp [Inner.step] at h
    | MainTrie =>
      simp only [Inner.step] at h
      cases hg : diff_get mtc key with
      | some currentValue => rw [hg] at h; simp at h
      | none =>
        rw [hg] at h
        simp only [StepResult.done.injEq, RuntimeHostVm.StorageGet.injEq] at h
        subst h
        intro p hp
        obtain ⟨r, hr⟩ := hinv p hp
        simp at hr
  | ExternalStorageClearPfx trie pfx maxKeys resume =>
    cases trie <;> simp [Inner.step] at h
  | ExternalStorageRoot trie resume =>
    cases trie with
    | ChildTrie => simp [Inner.step] at h
    | MainTrie =>
      simp only [Inner.step] at h
      split at h
      · simp at h
      · rename_i key inject_value heq
        split at h
        · rename_i he
          simp only [StepResult.done.injEq, RuntimeHostVm.StorageGet.injEq] at h
          subst h
          intro p hp
          simp only [Option.some.injEq] at hp
          exact ⟨key, inject_value, hp.symm, he⟩
        · simp at h
      · simp at h
      · simp at h
  | ExternalStorageNextKey trie key resume =>
    cases trie <;> simp [Inner.step] at h
  | ExternalOffchainStorageSet key value resume =>
    cases value <;> simp [Inner.step] at h
  | SignatureVerification msg sig pk valid resume => simp [Inner.step] at h
  | CallRuntimeVersion code outcome resume =>
    cases outcome <;> simp [Inner.step] at h
  | StartStorageTransaction resume => simp [Inner.step] at h
  | EndStorageTransaction rollback resume =>
    cases mtt <;> simp [Inner.step] at h
  | GetMaxLogLevel resume => simp [Inner.step] at h
  | LogEmit message resume =>
    simp only [Inner.step] at h
    cases hw : writeAll lg message with
    | some newLogs => rw [hw] at h; simp at h
    | none => rw [hw] at h; simp at h

theorem run_storageGet_rootcalc :
    ∀ (fuel : Nat) (st : Inner) (g : StorageGet),
      Inv2 st → Inner.run fuel st = .ok (.StorageGet g) →
      ∀ p, g.inner.root_calculation = some p →
        ∃ k inj, p = .StorageValue k inj ∧ k.length % 2 = 0 := by
  intro fuel
  induction fuel with
  | zero => intro st g _ h; simp [Inner.run] at h
  | succ fuel ih =>
    intro st g hinv h
    rw [Inner.run] at h
    cases hs : st.step with
    | next st' =>
      rw [hs] at h
      exact ih st' g (step_inv2 st st' hinv hs) h
    | done s =>
      rw [hs] at h
      simp only [RunResult.ok.injEq] at h
      subst h
      exact step_storageGet_rootcalc st g hinv hs
    | violation => rw [hs] at h; simp at h

/-- C4: whenever the driver yields a `StorageGet` while `root_calculation`
is `Some` (given invariant 2 of §3 at entry), the in-flight calculation is
in the `StorageValue` state with an even-nibble key; and a `StorageValue`
sub-request whose key has an odd nibble count is answered `None` inside
the loop, without yielding to the client. -/
theorem c4_root_storage_value :
    (∀ (fuel : Nat) (st : Inner) (g : StorageGet),
      Inv2 st → Inner.run fuel st = .ok (.StorageGet g) →
      ∀ p, g.inner.root_calculation = some p →
        ∃ k inj, p = .StorageValue k inj ∧ k.length % 2 = 0)
    ∧ (∀ (fuel : Nat) (st : Inner) (key : List Nat)
        (inj : Option (Bytes × TrieEntryVersion) → RootCalcProgress)
        (resume : Option Bytes → HostVm),
      key.length % 2 = 1 →
      Inner.run (fuel + 1) { st with vm := .ExternalStorageRoot .MainTrie resume, root_calculation := some (.StorageValue key inj) }
        = Inner.run fuel { st with vm := .ExternalStorageRoot .MainTrie resume, root_calculation := some (inj none) }) := by
  constructor
  · exact run_storageGet_rootcalc
  · intro fuel st key inj resume hodd
    rw [Inner.run]
    simp only [Inner.step, Option.getD_some]
    rw [if_neg (by omega)]

/-- Witness for C4: a main-trie root externality with an even-nibble
`StorageValue` sub-request yields `StorageGet` (first conjunct applied at
that state), and an odd-nibble sub-request is answered `None` in place
(second conjunct). -/
theorem c4_root_storage_value_witness :
    (∃ k inj, (RootCalcProgress.StorageValue [1, 2] fun _ => RootCalcProgress.Finished [])
        = RootCalcProgress.StorageValue k inj ∧ k.length % 2 = 0)
    ∧ Inner.run 1
        { vm := .ExternalStorageRoot .MainTrie (fun _ => .Error)
          main_trie_changes := []
          main_trie_transaction := []
          state_trie_version := .V0
          offchain_storage_changes := []
          root_calculation := some (.StorageValue [1] fun _ => .Finished [])
          logs := []
          max_log_level := 0
          trie_root_calculator := fun _ _ _ => .Finished [] }
        = Inner.run 0
          { vm := .ExternalStorageRoot .MainTrie (fun _ => .Error)
            main_trie_changes := []
            main_trie_transaction := []
            state_trie_version := .V0
            offchain_storage_changes := []
            root_calculation := some (RootCalcProgress.Finished [])
            logs := []
            max_log_level := 0
            trie_root_calculator := fun _ _ _ => .Finished [] } := by
  constructor
  · exact c4_root_storage_value.1 1
      { vm := .ExternalStorageRoot .MainTrie (fun _ => .Error)
        main_trie_changes := []
        main_trie_transaction := []
        state_trie_version := .V0
        offchain_storage_changes := []
        root_calculation := some (.StorageValue [1, 2] fun _ => .Finished [])
        logs := []
        max_log_level := 0
        trie_root_calculator := fun _ _ _ => .Finished [] }
      { inner :=
          { vm := .ExternalStorageRoot .MainTrie (fun _ => .Error)
            main_trie_changes := []
            main_trie_transaction := []
            state_trie_version := .V0
            offchain_storage_changes := []
            root_calculation := some (.StorageValue [1, 2] fun _ => .Finished [])
            logs := []
            max_log_level := 0
            trie_root_calculator := fun _ _ _ => .Finished [] } }
      (fun _ _ => ⟨fun _ => .Error, rfl⟩) rfl
      (.StorageValue [1, 2] fun _ => .Finished []) rfl
  · exact c4_root_storage_value.2 0
      { vm := .ExternalStorageRoot .MainTrie (fun _ => .Error)
        main_trie_changes := []
        main_trie_transaction := []
        state_trie_version := .V0
        offchain_storage_changes := []
        root_calculation := none
        logs := []
        max_log_level := 0
        trie_root_calculator := fun _ _ _ => .Finished [] }
      [1] (fun _ => .Finished []) (fun _ => .Error) rfl

theorem step_next_logs : ∀ (st st' : Inner), st.step = .next st' →
    st.logs <+: st'.logs ∧ (st'.logs.length ≤ 1048578 ∨ st'.logs = st.logs) := by
  intro st st' h
  obtain ⟨vm, mtc, mtt, stv, osc, rc, lg, mll, trc⟩ := st
  cases vm <;> simp only [Inner.step] at h <;> (try split at h) <;> (try split at h) <;>
    (try split at h) <;>
    first
      | (simp at h; done)
      | (rename_i newLogs hw
         simp only [StepResult.next.injEq] at h
         subst h
         exact ⟨(writeAll_ok _ _ _ hw).1, (writeAll_ok _ _ _ hw).2⟩)
      | ((try simp only [StepResult.next.injEq] at h)
         subst h
         exact ⟨List.prefix_refl _, Or.inr rfl⟩)

theorem step_done_logsOf : ∀ (st : Inner) (s : RuntimeHostVm), st.step = .done s →
    s.logsOf = none ∨ s.logsOf = some st.logs := by
  intro st s h
  obtain ⟨vm, mtc, mtt, stv, osc, rc, lg, mll, trc⟩ := st
  cases vm <;> simp only [Inner.step] at h <;> (try split at h) <;> (try split at h) <;>
    (try split at h) <;>
    first
      | (simp at h; done)
      | ((try simp only [StepResult.done.injEq] at h)
         subst h
         first
           | exact Or.inl rfl
           | exact Or.inr rfl)

theorem step_logEmit_ok (st : Inner) (message : List LogWrite) (resume : HostVm)
    (newLogs : Bytes) (hw : writeAll st.logs message = some newLogs) :
    Inner.step { st with vm := .LogEmit message resume }
      = .next { st with vm := resume, logs := newLogs } := by
  simp only [Inner.step]
  rw [hw]

theorem run_logs_invariant :
    ∀ (fuel : Nat) (st : Inner) (l : Bytes),
      st.logs.length ≤ 1048578 →
      (Inner.run fuel st).logsOf = some l →
      l.length ≤ 1048578 ∧ st.logs <+: l := by
  intro fuel
  induction fuel with
  | zero =>
    intro st l _ h
    simp [Inner.run, RunResult.logsOf] at h
  | succ fuel ih =>
    intro st l hb h
    rw [Inner.run] at h
    cases hs : st.step with
    | next st' =>
      rw [hs] at h
      obtain ⟨hpre, hbd⟩ := step_next_logs st st' hs
      have hb' : st'.logs.length ≤ 1048578 := by
        rcases hbd with h1 | h1
        · exact h1
        · rw [h1]
          exact hb
      obtain ⟨h1, h2⟩ := ih st' l hb' h
      exact ⟨h1, hpre.trans h2⟩
    | done s =>
      rw [hs] at h
      simp only [RunResult.logsOf] at h
      rcases step_done_logsOf st s hs with h0 | h0
      · rw [h0] at h
        simp at h
      · rw [h0] at h
        simp only [Option.some.injEq] at h
        subst h
        exact ⟨hb, List.prefix_refl _⟩
    | violation =>
      rw [hs] at h
      simp [RunResult.logsOf] at h

/-- C1 (amended): for every run of the driver starting from a log buffer
of at most 1 048 578 bytes, every status that surfaces a log buffer
surfaces one of at most 1 048 578 bytes that extends the initial buffer
byte-for-byte (no accepted byte is dropped); and whenever a `LogEmit`
message is rejected by the writer, the driver returns
`Finished(Err(LogsTooLong))`.  (The claim's strict 1 MiB bound fails: the
`write_char` check counts one byte while a character may occupy up to
four, see the counterexample; slice writes alone keep the buffer strictly
below 1 MiB.) -/
theorem c1_log_cap :
    (∀ (fuel : Nat) (st : Inner) (l : Bytes),
      st.logs.length ≤ 1048578 →
      (Inner.run fuel st).logsOf = some l →
      l.length ≤ 1048578 ∧ st.logs <+: l)
    ∧ (∀ (fuel : Nat) (st : Inner) (message : List LogWrite) (resume : HostVm),
      writeAll st.logs message = none →
      Inner.run (fuel + 1) { st with vm := .LogEmit message resume }
        = .ok (.Finished (.error .LogsTooLong))) := by
  constructor
  · exact run_logs_invariant
  · intro fuel st message resume hw
    rw [Inner.run]
    simp only [Inner.step]
    rw [hw]

/-- Witness for C1: a finished run surfaces its (short) log buffer, and a
rejected 1 MiB slice write makes the driver finish with `LogsTooLong`. -/
theorem c1_log_cap_witness :
    (([1, 2] : Bytes).length ≤ 1048578 ∧ ([1, 2] : Bytes) <+: [1, 2])
    ∧ Inner.run 1
        { vm := .LogEmit [.str (List.replicate 1048576 0)] (.Finished [])
          main_trie_changes := []
          main_trie_transaction := []
          state_trie_version := .V0
          offchain_storage_changes := []
          root_calculation := none
          logs := []
          max_log_level := 0
          trie_root_calculator := fun _ _ _ => .Finished [] }
        = .ok (.Finished (.error .LogsTooLong)) := by
  constructor
  · exact c1_log_cap.1 1
      { vm := .Finished [7]
        main_trie_changes := []
        main_trie_transaction := []
        state_trie_version := .V0
        offchain_storage_changes := []
        root_calculation := none
        logs := [1, 2]
        max_log_level := 0
        trie_root_calculator := fun _ _ _ => .Finished [] }
      [1, 2] (by decide) rfl
  · exact c1_log_cap.2 0
      { vm := .Finished []
        main_trie_changes := []
        main_trie_transaction := []
        state_trie_version := .V0
        offchain_storage_changes := []
        root_calculation := none
        logs := []
        max_log_level := 0
        trie_root_calculator := fun _ _ _ => .Finished [] }
      [.str (List.replicate 1048576 0)] (.Finished [])
      (by
        have h : writeStr [] (List.replicate 1048576 0) = none := by
          unfold writeStr
          rw [if_pos]
          rw [List.length_nil, List.length_replicate]
          simp only [logLimit]
          omega
        show writeAll [] [LogWrite.str (List.replicate 1048576 0)] = none
        rw [writeAll, writeOne, h]
        rfl)

/-- Counterexample for C1 as stated: with the buffer at 1 048 574 bytes, a
`write_char` of the four-byte character `U+10000` passes the `len + 1`
check and is accepted, after which the driver continues with a buffer of
1 048 578 ≥ 1 048 576 bytes — the write was neither rejected nor did the
buffer stay strictly below 1 MiB. -/
theorem c1_log_cap_counterexample :
    writeAll [] [.str (List.replicate 1048574 97), .char 65536]
        = some (List.replicate 1048574 97 ++ utf8Bytes 65536)
    ∧ (List.replicate 1048574 97 ++ utf8Bytes 65536).length = 1048578
    ∧ Inner.step
        { vm := .LogEmit [.str (List.replicate 1048574 97), .char 65536] (.Finished [])
          main_trie_changes := []
          main_trie_transaction := []
          state_trie_version := .V0
          offchain_storage_changes := []
          root_calculation := none
          logs := []
          max_log_level := 0
          trie_root_calculator := fun _ _ _ => .Finished [] }
        = .next
          { vm := HostVm.Finished []
            main_trie_changes := []
            main_trie_transaction := []
            state_trie_version := .V0
            offchain_storage_changes := []
            root_calculation := none
            logs := List.replicate 1048574 97 ++ utf8Bytes 65536
            max_log_level := 0
            trie_root_calculator := fun _ _ _ => .Finished [] } := by
  have h1 : writeStr [] (List.replicate 1048574 97) = some (List.replicate 1048574 97) := by
    unfold writeStr
    have hc : ¬ (logLimit ≤ ([] : Bytes).length + (List.replicate 1048574 97).length) := by
      rw [List.length_nil, List.length_replicate]
      simp only [logLimit]
      omega
    rw [if_neg hc, List.nil_append]
  have h2 : writeChar (List.replicate 1048574 97) 65536
      = some (List.replicate 1048574 97 ++ utf8Bytes 65536) := by
    unfold writeChar
    have hc : ¬ (logLimit ≤ (List.replicate 1048574 (97 : Nat)).length + 1) := by
      rw [List.length_replicate]
      simp only [logLimit]
      omega
    rw [if_neg hc]
  have hw : writeAll [] [.str (List.replicate 1048574 97), .char 65536]
      = some (List.replicate 1048574 97 ++ utf8Bytes 65536) := by
    rw [writeAll, writeOne, h1, Option.some_bind, writeAll, writeOne, h2, Option.some_bind]
    rfl
  refine ⟨hw, ?_, ?_⟩
  · rw [List.length_append, List.length_replicate]
    have hu : (utf8Bytes 65536).length = 4 := rfl
    rw [hu]
  · exact step_logEmit_ok
      { vm := HostVm.Finished []
        main_trie_changes := []
        main_trie_transaction := []
        state_trie_version := .V0
        offchain_storage_changes := []
        root_calculation := none
        logs := []
        max_log_level := 0
        trie_root_calculator := fun _ _ _ => .Finished [] }
      [.str (List.replicate 1048574 97), .char 65536] (.Finished [])
      (List.replicate 1048574 97 ++ utf8Bytes 65536) hw

theorem leDecode_lt : ∀ l : Bytes, (∀ b ∈ l, b < 256) → leDecode l < 256 ^ l.length := by
  intro l
  induction l with
  | nil => intro _; simp [leDecode]
  | cons b rest ih =>
    intro hb
    have hb0 : b < 256 := hb b (List.mem_cons_self _ _)
    have hr := ih (fun x hx => hb x (List.mem_cons_of_mem _ hx))
    simp only [leDecode, List.length_cons, pow_succ]
    omega

theorem leDecode_ge :
    ∀ l : Bytes, l ≠ [] → l.getLast? ≠ some 0 → 256 ^ (l.length - 1) ≤ leDecode l := by
  intro l
  induction l with
  | nil => intro h; exact absurd rfl h
  | cons b rest ih =>
    intro _ hlast
    cases rest with
    | nil =>
      have hb : b ≠ 0 := by
        intro h0
        subst h0
        exact hlast rfl
      simp [leDecode]
      omega
    | cons c t =>
      have hlast' : (c :: t).getLast? ≠ some 0 := by
        rwa [List.getLast?_cons_cons] at hlast
      have hih := ih (by simp) hlast'
      have hlen1 : (c :: t).length - 1 = t.length := by simp
      rw [hlen1] at hih
      show 256 ^ ((b :: c :: t).length - 1) ≤ leDecode (b :: c :: t)
      have hlen2 : (b :: c :: t).length - 1 = t.length + 1 := by simp
      rw [hlen2]
      rw [show leDecode (b :: c :: t) = b + 256 * leDecode (c :: t) from rfl]
      have hp : (256 : Nat) ^ (t.length + 1) = 256 ^ t.length * 256 := pow_succ 256 t.length
      omega

theorem encode_scale_length (n : Nat) :
    (encode_scale_compact_usize n).length
      = if n < 64 then 1
        else if n < 16384 then 2
        else if n < 1073741824 then 4
        else bytesNeeded n + 1 := by
  unfold encode_scale_compact_usize
  split_ifs <;> simp [leBytes_length]

theorem bytesNeeded_eq :
    ∀ (m n : Nat), 4 ≤ m → m ≤ 8 → 256 ^ (m - 1) ≤ n → n < 256 ^ m → bytesNeeded n = m := by
  intro m n h4 h8 hlo hhi
  interval_cases m <;>
    (norm_num at hlo hhi; unfold bytesNeeded; split_ifs <;> omega)

theorem decode_canonical_width :
    ∀ (v : Bytes) (n w : Nat), IsBytes v → nom_scale_compact_usize v = some (n, w) →
      (encode_scale_compact_usize n).length = w := by
  intro v n w hb h
  cases v with
  | nil => simp [nom_scale_compact_usize] at h
  | cons b rest =>
    have hb0 : b < 256 := hb b (List.mem_cons_self _ _)
    simp only [nom_scale_compact_usize] at h
    by_cases h0 : b % 4 = 0
    · rw [if_pos h0] at h
      simp only [Option.some.injEq, Prod.mk.injEq] at h
      obtain ⟨hn, hw⟩ := h
      subst hn
      subst hw
      rw [encode_scale_length, if_pos (by omega)]
    · rw [if_neg h0] at h
      by_cases h1 : b % 4 = 1
      · rw [if_pos h1] at h
        cases rest with
        | nil => simp at h
        | cons b1 rest1 =>
          dsimp only at h
          have hb1 : b1 < 256 := hb b1 (by simp)
          by_cases hlt : b / 4 + 64 * b1 < 64
          · rw [if_pos hlt] at h
            simp at h
          · rw [if_neg hlt] at h
            simp only [Option.some.injEq, Prod.mk.injEq] at h
            obtain ⟨hn, hw⟩ := h
            subst hn
            subst hw
            rw [encode_scale_length, if_neg (by omega), if_pos (by omega)]
      · rw [if_neg h1] at h
        by_cases h2 : b % 4 = 2
        · rw [if_pos h2] at h
          cases rest with
          | nil => simp at h
          | cons b1 rest1 =>
            cases rest1 with
            | nil => simp at h
            | cons b2 rest2 =>
              cases rest2 with
              | nil => simp at h
              | cons b3 rest3 =>
                dsimp only at h
                have hb1 : b1 < 256 := hb b1 (by simp)
                have hb2 : b2 < 256 := hb b2 (by simp)
                have hb3 : b3 < 256 := hb b3 (by simp)
                by_cases hlt : b / 4 + 64 * b1 + 16384 * b2 + 4194304 * b3 < 16384
                · rw [if_pos hlt] at h
                  simp at h
                · rw [if_neg hlt] at h
                  simp only [Option.some.injEq, Prod.mk.injEq] at h
                  obtain ⟨hn, hw⟩ := h
                  subst hn
                  subst hw
                  rw [encode_scale_length, if_neg (by omega), if_neg (by omega),
                    if_pos (by omega)]
        · rw [if_neg h2] at h
          by_cases hgt : 8 < b / 4 + 4
          · rw [if_pos hgt] at h
            simp at h
          · rw [if_neg hgt] at h
            by_cases hlen : rest.length < b / 4 + 4
            · rw [if_pos hlen] at h
              simp at h
            · rw [if_neg hlen] at h
              by_cases hval : leDecode (rest.take (b / 4 + 4)) < 1073741824
              · rw [if_pos hval] at h
                simp at h
              · rw [if_neg hval] at h
                by_cases hlast : (rest.take (b / 4 + 4)).getLast? = some 0
                · rw [if_pos hlast] at h
                  simp at h
                · rw [if_neg hlast] at h
                  simp only [Option.some.injEq, Prod.mk.injEq] at h
                  obtain ⟨hn, hw⟩ := h
                  subst hn
                  subst hw
                  have hblen : (rest.take (b / 4 + 4)).length = b / 4 + 4 := by
                    rw [List.length_take]
                    omega
                  have hbb : ∀ x ∈ rest.take (b / 4 + 4), x < 256 := fun x hx =>
                    hb x (List.mem_cons_of_mem _ (List.take_subset _ _ hx))
                  have hup : leDecode (rest.take (b / 4 + 4)) < 256 ^ (b / 4 + 4) := by
                    have := leDecode_lt (rest.take (b / 4 + 4)) hbb
                    rwa [hblen] at this
                  have hne : rest.take (b / 4 + 4) ≠ [] := by
                    intro he
                    rw [he] at hblen
                    simp at hblen
                  have hlo : 256 ^ (b / 4 + 4 - 1) ≤ leDecode (rest.take (b / 4 + 4)) := by
                    have := leDecode_ge (rest.take (b / 4 + 4)) hne hlast
                    rwa [hblen] at this
                  rw [encode_scale_length, if_neg (by omega), if_neg (by omega),
                    if_neg (by omega)]
                  rw [bytesNeeded_eq (b / 4 + 4) _ (by omega) (by omega) hlo hup]

theorem encode_length_step (n : Nat) (h : n < usizeMax) :
    (encode_scale_compact_usize (n + 1)).length = (encode_scale_compact_usize n).length
    ∨ (encode_scale_compact_usize (n + 1)).length
        = (encode_scale_compact_usize n).length + 1
    ∨ ((encode_scale_compact_usize (n + 1)).length
        = (encode_scale_compact_usize n).length + 2 ∧ n = 16383) := by
  rw [encode_scale_length, encode_scale_length]
  unfold bytesNeeded usizeMax at *
  split_ifs <;> omega

/-- C2 (amended): for every byte vector whose SCALE-compact length prefix
decodes to `(n, w)` with `n+1` not overflowing, `append_to_storage_value`
rewrites the prefix to the encoding of `n+1`, shifts the payload right by
`w′ − w` bytes and appends `e` — the result encodes the same sequence with
`e` appended — and the new width `w′` satisfies `w′ ∈ {w, w+1, w+2}`, with
`w′ = w+2` exactly at `n = 16383` (where the prefix jumps from the
two-byte to the four-byte mode; the claim's `w′ ∈ {w, w+1}` fails there,
see the counterexample, which also falsifies the code's own
`debug_assert`). -/
theorem c2_append_width :
    ∀ (v e : Bytes) (n w : Nat), IsBytes v →
      nom_scale_compact_usize v = some (n, w) → n < usizeMax →
      append_to_storage_value v e
          = encode_scale_compact_usize (n + 1) ++ v.drop w ++ e
      ∧ ((encode_scale_compact_usize (n + 1)).length = w
         ∨ (encode_scale_compact_usize (n + 1)).length = w + 1
         ∨ ((encode_scale_compact_usize (n + 1)).length = w + 2 ∧ n = 16383)) := by
  intro v e n w hb hd hlt
  have hwid : (encode_scale_compact_usize n).length = w := decode_canonical_width v n w hb hd
  have hstep := encode_length_step n hlt
  rw [hwid] at hstep
  refine ⟨?_, hstep⟩
  unfold append_to_storage_value
  rw [hd]
  dsimp only
  rw [if_neg (by omega : ¬ usizeMax ≤ n)]
  show encode_scale_compact_usize (n + 1)
      ++ (List.replicate ((encode_scale_compact_usize (n + 1)).length - w) 0 ++ v).drop
          (encode_scale_compact_usize (n + 1)).length
      ++ e = _
  have hwle : w ≤ (encode_scale_compact_usize (n + 1)).length := by
    rcases hstep with h1 | h1 | ⟨h1, _⟩ <;> omega
  have hdrop := drop_replicate_append ((encode_scale_compact_usize (n + 1)).length - w) w v
  rw [show (encode_scale_compact_usize (n + 1)).length - w + w
      = (encode_scale_compact_usize (n + 1)).length from by omega] at hdrop
  rw [hdrop]

/-- Witness for C2 at the one-byte boundary `n = 63` (the claim's own
example): appending to a 63-element prefix rewrites it to the two-byte
encoding of 64. -/
theorem c2_append_width_witness :
    (append_to_storage_value [252] [9]
        = encode_scale_compact_usize 64 ++ ([252] : Bytes).drop 1 ++ [9]
      ∧ ((encode_scale_compact_usize 64).length = 1
         ∨ (encode_scale_compact_usize 64).length = 1 + 1
         ∨ ((encode_scale_compact_usize 64).length = 1 + 2 ∧ 63 = 16383)))
    ∧ append_to_storage_value [252] [9] = [1, 1, 9] :=
  ⟨c2_append_width [252] [9] 63 1
    (by intro x hx; simp only [List.mem_singleton] at hx; omega) (by decide) (by decide),
   by decide⟩

/-- Counterexample for C2 as stated: the vector `[0xFD, 0xFF]` decodes to
`n = 16383` with width `w = 2`, but `n + 1 = 16384` encodes with width 4,
so `w′ ∉ {w, w+1}` — the payload is shifted right by two bytes, not one,
and the code's `debug_assert!(new == curr || new == curr + 1)` is
violated (the resulting value still encodes the appended sequence). -/
theorem c2_append_width_counterexample :
    nom_scale_compact_usize [253, 255] = some (16383, 2)
    ∧ append_to_storage_value [253, 255] [170] = [2, 0, 1, 0, 170]
    ∧ (encode_scale_compact_usize 16384).length = 4
    ∧ ¬ ((encode_scale_compact_usize 16384).length = 2
         ∨ (encode_scale_compact_usize 16384).length = 2 + 1) := by decide

end RuntimeHost
